import Mathlib

/-!
Shallow embedding of the wordle_solve program (src/main.rs) and proofs about
its specification.

Conventions of the embedding:
* A Rust `&str` is modelled as a `List Char`; `str::len` (the UTF-8 byte
  length) is modelled by `strByteLen`.
* `Word([char; 5])` is modelled as a length-5 `List Char` subtype.
* A Rust panic (array index out of bounds, as in `word.0[cand.position]`)
  is modelled by returning `none` from an `Option`-valued function.
* `Hint.cand_letters` is `Option<&[FoundLetter]>` in Rust with `None` used
  exactly when the vector is empty; since `is_candidate` treats `None` and
  an empty slice identically, it is modelled as a plain list.
-/

namespace WordleSolve

/-- Rust `char::to_ascii_lowercase`. -/
def toAsciiLowercase (c : Char) : Char :=
  if 'A' ≤ c ∧ c ≤ 'Z' then Char.ofNat (c.toNat + 32) else c

/-- Number of bytes of the UTF-8 encoding of one scalar value
(Rust `char::len_utf8`). -/
def charUtf8Len (c : Char) : Nat :=
  if c.toNat < 0x80 then 1
  else if c.toNat < 0x800 then 2
  else if c.toNat < 0x10000 then 3
  else 4

/-- Rust `str::len`: the length in BYTES of the UTF-8 encoding. -/
def strByteLen (s : List Char) : Nat :=
  (s.map charUtf8Len).sum

/-- Rust `struct Word([char; 5])`. -/
def Word : Type := { l : List Char // l.length = 5 }

instance : DecidableEq Word := fun a b =>
  decidable_of_iff (a.val = b.val) Subtype.ext_iff.symm

/-- The characters of a `Word`, as printed by its `Display` impl
(the 5 characters verbatim, no separators). -/
def Word.letters (w : Word) : List Char := w.val

/-- The character of a `Word` at index `i` (total, with an irrelevant
default: every index used in the development is below 5). -/
def Word.letterAt (w : Word) (i : Nat) : Char :=
  w.letters.getD i (Char.ofNat 0)

/-- Rust `struct FoundLetter` with fields letter, position, correct_location. -/
structure FoundLetter where
  letter : Char
  position : Nat
  correct_location : Bool
deriving DecidableEq, Repr

/-- Rust `struct Hint` with fields omit_letters, req_letters, cand_letters.
`cand_letters : Option<&[FoundLetter]>` is `None` exactly when empty and is
iterated identically to an empty slice, so it is modelled as a list. -/
structure Hint where
  omit_letters : List Char
  req_letters : List Char
  cand_letters : List FoundLetter
deriving DecidableEq, Repr

/-- The positional loop of `is_candidate` (the `for cand in cands` loop).
`none` models the panic of the out-of-bounds index `word.0[cand.position]`. -/
def checkCands (w : Word) : List FoundLetter → Option Bool
  | [] => some true
  | cand :: rest =>
    match w.letters.get? cand.position with
    | none => none
    | some ch =>
      if cand.correct_location then
        if ch ≠ cand.letter then some false else checkCands w rest
      else if ch = cand.letter then some false else checkCands w rest

/-- Rust `fn is_candidate(word: &Word, hint: &Hint) -> bool`.
`none` models a panic inside the positional loop. -/
def is_candidate (w : Word) (hint : Hint) : Option Bool :=
  if !hint.omit_letters.isEmpty && w.letters.any (fun c => hint.omit_letters.contains c) then
    some false
  else if !hint.req_letters.isEmpty
      && !(hint.req_letters.all (fun c => w.letters.contains c)) then
    some false
  else
    checkCands w hint.cand_letters

/-- Rust `impl TryFrom<&str> for Word`, the write loop:
`value.chars().enumerate().take(5).for_each(|(pos, c)| word.0[pos] = c.to_ascii_lowercase())`. -/
def writeWord : Nat → List Char → List Char → List Char
  | _, [], arr => arr
  | pos, c :: rest, arr => writeWord (pos + 1) rest (arr.set pos (toAsciiLowercase c))

/-- Rust `impl TryFrom<&str> for Word`: fails iff `value.len() != 5` (`len`
is the UTF-8 BYTE length), then writes the lowercased characters over
`Word::default()` (five NUL characters). -/
def word_try_from (value : List Char) : Option Word :=
  if strByteLen value = 5 then
    some ⟨writeWord 0 (value.take 5) (List.replicate 5 (Char.ofNat 0)), by
      have h : ∀ (l : List Char) (pos : Nat) (arr : List Char),
          (writeWord pos l arr).length = arr.length := by
        intro l
        induction l with
        | nil => intro pos arr; rfl
        | cons c rest ih =>
          intro pos arr
          rw [writeWord, ih]
          exact arr.length_set pos (toAsciiLowercase c)
      rw [h]
      simp⟩
  else
    none

/-- Result of feeding one feedback line to the solve loop's parser:
`ok` models the `break` out of the labelled input loop, `invalid` models
the invalid-entry diagnostic followed by a re-prompt of the same loop. Either way the
carried `Hint` is the state of the three outer vectors afterwards. -/
inductive LineResult where
  | ok (s : Hint)
  | invalid (s : Hint)
deriving DecidableEq, Repr

/-- The body of the solve loop's feedback parser (src/main.rs, the
`for c in line.chars()` loop): mutates the three outer vectors in place,
tracking `position` and `negate_next`. Markers are `!`, backtick (0x60)
and apostrophe (0x27). -/
def solveLine (s : Hint) (position : Nat) (negate_next : Bool) :
    List Char → LineResult
  | [] => LineResult.ok s
  | c :: rest =>
    if c = '!' ∨ c = Char.ofNat 0x60 ∨ c = Char.ofNat 0x27 then
      solveLine s position true rest
    else if 'a' ≤ c ∧ c ≤ 'z' then
      if negate_next then
        solveLine { s with omit_letters := s.omit_letters ++ [c] }
          (position + 1) false rest
      else
        solveLine { s with
            req_letters := s.req_letters ++ [c],
            cand_letters := s.cand_letters ++ [⟨c, position, false⟩] }
          (position + 1) negate_next rest
    else if 'A' ≤ c ∧ c ≤ 'Z' then
      solveLine { s with
          req_letters := s.req_letters ++ [toAsciiLowercase c],
          cand_letters := s.cand_letters ++ [⟨toAsciiLowercase c, position, true⟩] }
        (position + 1) negate_next rest
    else
      LineResult.invalid s

/-- The filtering step inlined in `suggest`:
`words.iter().filter(|&word| is_candidate(word, &hint)).copied().collect()`.
`none` models a panic raised by `is_candidate` on some word. -/
def filter_pool : List Word → Hint → Option (List Word)
  | [], _ => some []
  | w :: rest, hint =>
    match is_candidate w hint with
    | none => none
    | some true => (filter_pool rest hint).map (fun ws => w :: ws)
    | some false => filter_pool rest hint

/-- The `freq` map of `suggest`: total number of occurrences of `c` over all
letters of all pool words (`*freq.entry(letter).or_insert(0) += 1`). -/
def letterFreq (words : List Word) (c : Char) : Int :=
  ((words.map Word.letters).flatten.count c : Nat)

/-- The BTreeMap key computed in `suggest` for one word:
`word.0.iter().unique().map(|c| -freq.get(&c).unwrap()).sum()` — the NEGATED
sum over the word's distinct letters of their pool frequencies.  (`unwrap`
cannot fail: every letter of a pool word is in `freq`.) -/
def wordScore (pool : List Word) (w : Word) : Int :=
  (w.letters.dedup.map (fun c => -letterFreq pool c)).sum

/-- Rust `BTreeMap::entry(k).or_insert_with(Vec::new).push(w)` on an association
list kept sorted by strictly increasing key. -/
def insertScore (k : Int) (w : Word) : List (Int × List Word) → List (Int × List Word)
  | [] => [(k, [w])]
  | (k1, ws) :: rest =>
    if k = k1 then (k1, ws ++ [w]) :: rest
    else if k < k1 then (k, [w]) :: (k1, ws) :: rest
    else (k1, ws) :: insertScore k w rest

/-- Lookup in the sorted association list (the words stored under key `k`;
`[]` when the key is absent). -/
def lookupScore : List (Int × List Word) → Int → List Word
  | [], _ => []
  | (k1, ws) :: rest, k => if k1 = k then ws else lookupScore rest k

/-- The `scores` map built by `suggest` over the filtered pool. -/
def buildScores (pool : List Word) : List (Int × List Word) :=
  pool.foldl (fun m w => insertScore (wordScore pool w) w m) []

/-- Rust `fn suggest(hint, words) -> (Vec<Word>, BTreeMap<i32, Vec<Word>>)`.
`none` models a panic from `is_candidate` during filtering. -/
def suggest (hint : Hint) (words : List Word) :
    Option (List Word × List (Int × List Word)) :=
  (filter_pool words hint).map (fun flt => (flt, buildScores flt))

/-- Rust `enum GuessLetter`. -/
inductive GuessLetter where
  | Empty
  | Correct (c : Char)
  | Present (c : Char)
  | Incorrect (c : Char)
deriving DecidableEq, Repr

/-- The per-position classification of `guess_word`. -/
def guessLetterAt (answer : Word) (gc ac : Char) : GuessLetter :=
  if gc = ac then GuessLetter.Correct gc
  else if answer.letters.any (fun c => c = gc) then GuessLetter.Present gc
  else GuessLetter.Incorrect gc

/-- Rust `fn guess_word(guess: Word, answer: Word) -> GuessResult`: the result
array holds, at each position, the classification of the zipped guess and
answer characters (both words have 5 letters, so every `Empty` placeholder
is overwritten). -/
def guess_word (guess answer : Word) : List GuessLetter :=
  List.zipWith (guessLetterAt answer) guess.letters answer.letters

/-- Rust `const MAX_GUESSES: usize = 6`. -/
def MAX_GUESSES : Nat := 6

/-- Outcome of `play` together with `main`'s handling: `Won n` is
`Ok(guess_no)`, `Lost` is the ran-out-of-guesses error, `OutOfInput` is a
readline error propagated by `?`. -/
inductive PlayOutcome where
  | Won (score : Nat)
  | Lost
  | OutOfInput
deriving DecidableEq, Repr

/-- Rust `fn play(answer: Word) -> Result<usize>` with the input stream made
explicit as a list of lines.  `guess_no` counts rounds from 1; the guard
`MAX_GUESSES < guess_no` models the `for guess_no in 1..=MAX_GUESSES` loop
having ended, which yields the ran-out-of-guesses error.  A line that fails
`Word::try_from` prints an invalid-guess diagnostic and re-prompts in the
same round. -/
def playFrom (answer : Word) (guess_no : Nat) : List (List Char) → PlayOutcome
  | [] =>
    if MAX_GUESSES < guess_no then PlayOutcome.Lost else PlayOutcome.OutOfInput
  | line :: rest =>
    if MAX_GUESSES < guess_no then PlayOutcome.Lost
    else
      match word_try_from line with
      | none => playFrom answer guess_no rest
      | some guess =>
        if guess = answer then PlayOutcome.Won guess_no
        else playFrom answer (guess_no + 1) rest

/-- Entry wrapper: `play` starts at round 1. -/
def play (answer : Word) (lines : List (List Char)) : PlayOutcome :=
  playFrom answer 1 lines

/-- The message printed by `main` when `play` returns `Err`:
a better-luck-next-time message quoting the answer. -/
def lostMessage (answer : Word) : List Char :=
  "Better luck next time.  The answer was \"".toList ++ answer.letters ++ "\".".toList

/-! ### Concrete words used in examples and witnesses -/

def wABCDE : Word := ⟨['a', 'b', 'c', 'd', 'e'], rfl⟩

def wAABBC : Word := ⟨['a', 'a', 'b', 'b', 'c'], rfl⟩

def wDDAEE : Word := ⟨['d', 'd', 'a', 'e', 'e'], rfl⟩

def hintC2 : Hint := ⟨['z'], ['a'], [⟨'b', 0, false⟩]⟩

/-- Characters the feedback parser accepts: the three negation markers
(`!`, backtick, apostrophe), lowercase letters, uppercase letters. -/
def isFeedbackChar (c : Char) : Prop :=
  (c = '!' ∨ c = Char.ofNat 0x60 ∨ c = Char.ofNat 0x27) ∨
    ('a' ≤ c ∧ c ≤ 'z') ∨ ('A' ≤ c ∧ c ≤ 'Z')

instance (c : Char) : Decidable (isFeedbackChar c) := by
  unfold isFeedbackChar; infer_instance

/-- Relation stating that `s'` holds everything `s` holds, each list extended only by appending. -/
def hintExtends (s s' : Hint) : Prop :=
  (∃ t1, s'.omit_letters = s.omit_letters ++ t1) ∧
  (∃ t2, s'.req_letters = s.req_letters ++ t2) ∧
  (∃ t3, s'.cand_letters = s.cand_letters ++ t3)

/-- The keys of the association list strictly increase (the `BTreeMap`
invariant maintained by `insertScore`). -/
def ScoresSorted (m : List (Int × List Word)) : Prop :=
  m.Pairwise (fun a b => a.1 < b.1)

/-- Concrete pool and hint for the C6 witness. -/
def hintC6 : Hint := ⟨['z'], ['a'], [⟨'a', 0, false⟩]⟩

def poolC6 : List Word := [wABCDE, wAABBC, wDDAEE]


/-! ### Helper lemmas -/

theorem Word.exists_five (w : Word) :
    ∃ c0 c1 c2 c3 c4, w.letters = [c0, c1, c2, c3, c4] := by
  obtain ⟨l, hl⟩ := w
  show ∃ c0 c1 c2 c3 c4, l = _
  rcases l with _ | ⟨c0, l⟩
  · simp at hl
  rcases l with _ | ⟨c1, l⟩
  · simp at hl
  rcases l with _ | ⟨c2, l⟩
  · simp at hl
  rcases l with _ | ⟨c3, l⟩
  · simp at hl
  rcases l with _ | ⟨c4, l⟩
  · simp at hl
  rcases l with _ | ⟨c5, l⟩
  · exact ⟨c0, c1, c2, c3, c4, rfl⟩
  · simp at hl

theorem guessLetterAt_eq (answer : Word) (gc ac : Char) :
    guessLetterAt answer gc ac =
      if gc = ac then GuessLetter.Correct gc
      else if gc ∈ answer.letters then GuessLetter.Present gc
      else GuessLetter.Incorrect gc := by
  unfold guessLetterAt
  by_cases h1 : gc = ac
  · simp [h1]
  · by_cases h2 : gc ∈ answer.letters
    · simp [h1, h2, List.any_eq_true]
    · simp [h1, h2, List.any_eq_true]

/-! ### C1: the per-position classification of `guess_word` -/

/-- C1: `guess_word` classifies each position `i ∈ 0..4` independently:
`Correct` when the guess and answer characters agree there, else `Present`
when the guessed character occurs anywhere in the answer, else `Incorrect`;
moreover evaluating the guess aabbc against the answer ddaee marks both occurrences of `a` as
`Present` (the documented duplicate-letter simplification) and
guessing abcde against abcde itself gives five `Correct` verdicts. -/
theorem guess_word_c1 (guess answer : Word) (i : Nat) (hi : i < 5) :
    ((guess_word guess answer).get? i =
      some (if guess.letterAt i = answer.letterAt i then
              GuessLetter.Correct (guess.letterAt i)
            else if guess.letterAt i ∈ answer.letters then
              GuessLetter.Present (guess.letterAt i)
            else
              GuessLetter.Incorrect (guess.letterAt i))) ∧
    guess_word wAABBC wDDAEE =
      [GuessLetter.Present 'a', GuessLetter.Present 'a', GuessLetter.Incorrect 'b',
       GuessLetter.Incorrect 'b', GuessLetter.Incorrect 'c'] ∧
    guess_word wABCDE wABCDE =
      [GuessLetter.Correct 'a', GuessLetter.Correct 'b', GuessLetter.Correct 'c',
       GuessLetter.Correct 'd', GuessLetter.Correct 'e'] := by
  refine ⟨?_, by decide, by decide⟩
  obtain ⟨g0, g1, g2, g3, g4, hg⟩ := guess.exists_five
  obtain ⟨a0, a1, a2, a3, a4, ha⟩ := answer.exists_five
  interval_cases i <;>
    simp only [guess_word, guessLetterAt_eq, Word.letterAt, hg, ha, List.zipWith,
      List.get?, List.getD, Option.getD_some]

/-- Witness for C1 at a concrete position and pair of words. -/
theorem guess_word_c1_witness :
    (guess_word wAABBC wDDAEE).get? 0 =
      some (if wAABBC.letterAt 0 = wDDAEE.letterAt 0 then
              GuessLetter.Correct (wAABBC.letterAt 0)
            else if wAABBC.letterAt 0 ∈ wDDAEE.letters then
              GuessLetter.Present (wAABBC.letterAt 0)
            else
              GuessLetter.Incorrect (wAABBC.letterAt 0)) :=
  (guess_word_c1 wAABBC wDDAEE 0 (by decide)).1

/-! ### C2: characterization of `is_candidate` -/

theorem Word.length_letters (w : Word) : w.letters.length = 5 := w.2

theorem checkCands_get?_eq (w : Word) (cand : FoundLetter) (hp : cand.position < 5) :
    w.letters.get? cand.position =
      some (w.letterAt cand.position) := by
  have hlt : cand.position < w.letters.length := by rw [w.length_letters]; exact hp
  rw [Word.letterAt, List.get?_eq_getElem?, List.getD_eq_getElem?_getD,
    List.getElem?_eq_getElem hlt]
  rfl

theorem checkCands_some_true_iff (w : Word) : ∀ l : List FoundLetter,
    (∀ fl ∈ l, fl.position < 5) →
    (checkCands w l = some true ↔
      (∀ fl ∈ l,
        (fl.correct_location = true →
          w.letterAt fl.position = fl.letter) ∧
        (fl.correct_location = false →
          w.letterAt fl.position ≠ fl.letter)))
  | [], _ => by simp [checkCands]
  | cand :: rest, hpos => by
    have hch := checkCands_get?_eq w cand (hpos cand (List.mem_cons_self _ _))
    have ih := checkCands_some_true_iff w rest
      (fun fl hfl => hpos fl (List.mem_cons_of_mem _ hfl))
    rw [checkCands, hch]
    rcases hcl : cand.correct_location <;>
      by_cases heq : w.letterAt cand.position = cand.letter <;>
        simp [hcl, heq, ih, List.forall_mem_cons]

theorem checkCands_isSome (w : Word) : ∀ l : List FoundLetter,
    (∀ fl ∈ l, fl.position < 5) → (checkCands w l).isSome = true
  | [], _ => rfl
  | cand :: rest, hpos => by
    have hch := checkCands_get?_eq w cand (hpos cand (List.mem_cons_self _ _))
    have ih := checkCands_isSome w rest
      (fun fl hfl => hpos fl (List.mem_cons_of_mem _ hfl))
    rw [checkCands, hch]
    rcases cand.correct_location <;>
      by_cases heq : w.letterAt cand.position = cand.letter <;>
        simp [heq, ih]

theorem omitCond_eq_false_iff (w : Word) (om : List Char) :
    (!om.isEmpty && w.letters.any fun c => om.contains c) = false ↔
      ∀ c ∈ w.letters, c ∉ om := by
  cases om with
  | nil => simp
  | cons x xs => simp [List.any_eq_false, List.contains, List.elem_iff]

theorem reqCond_eq_false_iff (w : Word) (rq : List Char) :
    (!rq.isEmpty && !(rq.all fun c => w.letters.contains c)) = false ↔
      ∀ c ∈ rq, c ∈ w.letters := by
  cases rq with
  | nil => simp
  | cons x xs => simp [List.all_eq_true, List.contains, List.elem_iff]

/-- C2: for hints whose `FoundLetter`s all have position `0..4`,
`is_candidate` returns (without panicking) `true` iff the word avoids every
`omit_letters` entry, contains every `req_letters` entry (a contains-check),
and matches/avoids the letter at each reported position according to
`correct_location`. -/
theorem is_candidate_c2 (w : Word) (h : Hint)
    (hpos : ∀ fl ∈ h.cand_letters, fl.position < 5) :
    (is_candidate w h).isSome = true ∧
    (is_candidate w h = some true ↔
      ((∀ c ∈ w.letters, c ∉ h.omit_letters) ∧
       (∀ c ∈ h.req_letters, c ∈ w.letters) ∧
       (∀ fl ∈ h.cand_letters,
         (fl.correct_location = true →
            w.letterAt fl.position = fl.letter) ∧
         (fl.correct_location = false →
            w.letterAt fl.position ≠ fl.letter)))) := by
  unfold is_candidate
  by_cases hA : (!h.omit_letters.isEmpty
      && w.letters.any fun c => h.omit_letters.contains c) = true
  · rw [if_pos hA]
    have hA' : ¬(∀ c ∈ w.letters, c ∉ h.omit_letters) := by
      rw [← omitCond_eq_false_iff w h.omit_letters, hA]
      simp
    refine ⟨rfl, ?_, ?_⟩
    · intro hfalse; exact absurd hfalse (by simp)
    · rintro ⟨h1, -, -⟩; exact absurd h1 hA'
  · rw [if_neg hA]
    have h1 : ∀ c ∈ w.letters, c ∉ h.omit_letters := by
      rw [← omitCond_eq_false_iff w h.omit_letters]
      revert hA
      cases (!h.omit_letters.isEmpty && w.letters.any fun c => h.omit_letters.contains c) <;>
        simp
    by_cases hB : (!h.req_letters.isEmpty
        && !(h.req_letters.all fun c => w.letters.contains c)) = true
    · rw [if_pos hB]
      have hB' : ¬(∀ c ∈ h.req_letters, c ∈ w.letters) := by
        rw [← reqCond_eq_false_iff w h.req_letters, hB]
        simp
      refine ⟨rfl, ?_, ?_⟩
      · intro hfalse; exact absurd hfalse (by simp)
      · rintro ⟨-, h2, -⟩; exact absurd h2 hB'
    · rw [if_neg hB]
      have h2 : ∀ c ∈ h.req_letters, c ∈ w.letters := by
        rw [← reqCond_eq_false_iff w h.req_letters]
        revert hB
        cases (!h.req_letters.isEmpty && !(h.req_letters.all fun c => w.letters.contains c)) <;>
          simp
      refine ⟨checkCands_isSome w _ hpos, ?_, ?_⟩
      · intro hall
        exact ⟨h1, h2, (checkCands_some_true_iff w _ hpos).mp hall⟩
      · rintro ⟨-, -, h3⟩
        exact (checkCands_some_true_iff w _ hpos).mpr h3

/-- Witness for C2 at a concrete word and hint. -/
theorem is_candidate_c2_witness :
    (is_candidate wABCDE hintC2).isSome = true ∧
    (is_candidate wABCDE hintC2 = some true ↔
      ((∀ c ∈ wABCDE.letters, c ∉ hintC2.omit_letters) ∧
       (∀ c ∈ hintC2.req_letters, c ∈ wABCDE.letters) ∧
       (∀ fl ∈ hintC2.cand_letters,
         (fl.correct_location = true →
            wABCDE.letterAt fl.position = fl.letter) ∧
         (fl.correct_location = false →
            wABCDE.letterAt fl.position ≠ fl.letter)))) :=
  is_candidate_c2 wABCDE hintC2 (by decide)

/-! ### C3 and C4: the solve loop's feedback parser -/

theorem hintExtends_refl (s : Hint) : hintExtends s s :=
  ⟨⟨[], by simp⟩, ⟨[], by simp⟩, ⟨[], by simp⟩⟩

theorem hintExtends_trans {a b c : Hint} (h1 : hintExtends a b) (h2 : hintExtends b c) :
    hintExtends a c := by
  obtain ⟨⟨t1, ht1⟩, ⟨t2, ht2⟩, ⟨t3, ht3⟩⟩ := h1
  obtain ⟨⟨u1, hu1⟩, ⟨u2, hu2⟩, ⟨u3, hu3⟩⟩ := h2
  exact ⟨⟨t1 ++ u1, by rw [hu1, ht1, List.append_assoc]⟩,
         ⟨t2 ++ u2, by rw [hu2, ht2, List.append_assoc]⟩,
         ⟨t3 ++ u3, by rw [hu3, ht3, List.append_assoc]⟩⟩

theorem marker_not_lower {c : Char} (h : 'a' ≤ c ∧ c ≤ 'z') :
    ¬(c = '!' ∨ c = Char.ofNat 0x60 ∨ c = Char.ofNat 0x27) := by
  rintro (rfl | rfl | rfl) <;> exact absurd h (by decide)

theorem marker_not_upper {c : Char} (h : 'A' ≤ c ∧ c ≤ 'Z') :
    ¬(c = '!' ∨ c = Char.ofNat 0x60 ∨ c = Char.ofNat 0x27) := by
  rintro (rfl | rfl | rfl) <;> exact absurd h (by decide)

theorem upper_not_lower {c : Char} (h : 'A' ≤ c ∧ c ≤ 'Z') :
    ¬('a' ≤ c ∧ c ≤ 'z') :=
  fun hl => absurd (le_trans hl.1 h.2) (by decide)

/-- C3 counterexample: the line `a1` is rejected (the `1` is invalid), but the
hint state after the rejection is NOT the state from before the line: the
entries recorded for the valid prefix `a` are retained. -/
theorem solveLine_c3_counterexample :
    solveLine ⟨[], [], []⟩ 0 false ['a', '1'] =
      LineResult.invalid ⟨[], ['a'], [⟨'a', 0, false⟩]⟩ ∧
    (⟨[], ['a'], [⟨'a', 0, false⟩]⟩ : Hint) ≠ (⟨[], [], []⟩ : Hint) := by
  decide

/-- C3 (amended): a feedback line whose first invalid character (outside
`a-z`, `A-Z` and the negation markers) follows a prefix of valid characters
is rejected with a diagnostic and re-prompted, and the hint state after the
rejection is EXACTLY the state obtained by running the parser on the valid
prefix alone — every entry recorded for the prefix is retained (nothing is
rolled back), and the retained state is an append-only extension of the
state from before the line. -/
theorem solveLine_c3_amended (s : Hint) (pos : Nat) (neg : Bool)
    (pre suf : List Char) (c : Char)
    (hpre : ∀ d ∈ pre, isFeedbackChar d) (hc : ¬ isFeedbackChar c) :
    ∃ s', solveLine s pos neg pre = LineResult.ok s' ∧
      solveLine s pos neg (pre ++ c :: suf) = LineResult.invalid s' ∧
      hintExtends s s' := by
  induction pre generalizing s pos neg with
  | nil =>
    refine ⟨s, rfl, ?_, hintExtends_refl s⟩
    have h1 : ¬(c = '!' ∨ c = Char.ofNat 0x60 ∨ c = Char.ofNat 0x27) :=
      fun h => hc (Or.inl h)
    have h2 : ¬('a' ≤ c ∧ c ≤ 'z') := fun h => hc (Or.inr (Or.inl h))
    have h3 : ¬('A' ≤ c ∧ c ≤ 'Z') := fun h => hc (Or.inr (Or.inr h))
    simp only [List.nil_append, solveLine]
    rw [if_neg h1, if_neg h2, if_neg h3]
  | cons d pre ih =>
    have hd : (d = '!' ∨ d = Char.ofNat 0x60 ∨ d = Char.ofNat 0x27) ∨
        ('a' ≤ d ∧ d ≤ 'z') ∨ ('A' ≤ d ∧ d ≤ 'Z') :=
      hpre d (List.mem_cons_self _ _)
    have hpre' : ∀ e ∈ pre, isFeedbackChar e :=
      fun e he => hpre e (List.mem_cons_of_mem _ he)
    rcases hd with hm | hl | hu
    · obtain ⟨s', h1, h2, hext⟩ := ih s pos true hpre'
      refine ⟨s', ?_, ?_, hext⟩
      · simp only [solveLine]
        rw [if_pos hm]
        exact h1
      · simp only [List.cons_append, solveLine]
        rw [if_pos hm]
        exact h2
    · rcases neg with _ | _
      · obtain ⟨s', h1, h2, hext⟩ := ih
          { s with
              req_letters := s.req_letters ++ [d],
              cand_letters := s.cand_letters ++ [⟨d, pos, false⟩] }
          (pos + 1) false hpre'
        refine ⟨s', ?_, ?_,
          hintExtends_trans ⟨⟨[], by simp⟩, ⟨[d], rfl⟩, ⟨[⟨d, pos, false⟩], rfl⟩⟩ hext⟩
        · simp only [solveLine]
          rw [if_neg (marker_not_lower hl), if_pos hl, if_neg (by simp)]
          exact h1
        · simp only [List.cons_append, solveLine]
          rw [if_neg (marker_not_lower hl), if_pos hl, if_neg (by simp)]
          exact h2
      · obtain ⟨s', h1, h2, hext⟩ := ih
          { s with omit_letters := s.omit_letters ++ [d] } (pos + 1) false hpre'
        refine ⟨s', ?_, ?_,
          hintExtends_trans ⟨⟨[d], rfl⟩, ⟨[], by simp⟩, ⟨[], by simp⟩⟩ hext⟩
        · simp only [solveLine]
          rw [if_neg (marker_not_lower hl), if_pos hl, if_pos trivial]
          exact h1
        · simp only [List.cons_append, solveLine]
          rw [if_neg (marker_not_lower hl), if_pos hl, if_pos trivial]
          exact h2
    · obtain ⟨s', h1, h2, hext⟩ := ih
        { s with
            req_letters := s.req_letters ++ [toAsciiLowercase d],
            cand_letters := s.cand_letters ++ [⟨toAsciiLowercase d, pos, true⟩] }
        (pos + 1) neg hpre'
      refine ⟨s', ?_, ?_,
        hintExtends_trans
          ⟨⟨[], by simp⟩, ⟨[toAsciiLowercase d], rfl⟩,
           ⟨[⟨toAsciiLowercase d, pos, true⟩], rfl⟩⟩ hext⟩
      · simp only [solveLine]
        rw [if_neg (marker_not_upper hu), if_neg (upper_not_lower hu), if_pos hu]
        exact h1
      · simp only [List.cons_append, solveLine]
        rw [if_neg (marker_not_upper hu), if_neg (upper_not_lower hu), if_pos hu]
        exact h2

/-- Witness for the amended C3: rejecting the line made of the valid prefix
`a` followed by the invalid `1` keeps exactly the state that processing `a`
alone produces. -/
theorem solveLine_c3_amended_witness :
    ∃ s', solveLine ⟨[], [], []⟩ 0 false ['a'] = LineResult.ok s' ∧
      solveLine ⟨[], [], []⟩ 0 false ['a', '1'] = LineResult.invalid s' ∧
      hintExtends ⟨[], [], []⟩ s' :=
  solveLine_c3_amended ⟨[], [], []⟩ 0 false ['a'] [] '1' (by decide) (by decide)

/-- C4 counterexample: in the line `!Ab` the letter `b` is recorded as
globally absent (pushed to `omit_letters`) although the character
immediately preceding it is `A`, not a negation marker: the pending negation
set by `!` survives the uppercase letter. -/
theorem solveLine_c4_counterexample :
    solveLine ⟨[], [], []⟩ 0 false ['!', 'A', 'b'] =
      LineResult.ok ⟨['b'], ['a'], [⟨'a', 0, true⟩]⟩ ∧
    ['!', 'A', 'b'].get? 1 = some 'A' ∧
    ¬('A' = '!' ∨ 'A' = Char.ofNat 0x60 ∨ 'A' = Char.ofNat 0x27) := by
  decide

/-- C4 (amended): one step of the feedback parser. A negation marker sets the
pending-negation flag without advancing the position. A lowercase letter is
recorded as globally absent iff the flag is pending when it is reached
(the flag is set by a marker and cleared only by a lowercase letter —
an intervening uppercase letter leaves it pending), and otherwise is
appended to `req_letters` and to `cand_letters` with
`correct_location = false` at the current position. An uppercase letter
appends its lowercase form to `req_letters` and a `correct_location = true`
entry at the current position, leaving the flag untouched. Every interpreted
letter advances the position counter by one. -/
theorem solveLine_c4_amended (s : Hint) (pos : Nat) (neg : Bool) (rest : List Char)
    (c : Char) :
    ((c = '!' ∨ c = Char.ofNat 0x60 ∨ c = Char.ofNat 0x27) →
      solveLine s pos neg (c :: rest) = solveLine s pos true rest) ∧
    (('a' ≤ c ∧ c ≤ 'z') → neg = true →
      solveLine s pos neg (c :: rest) =
        solveLine { s with omit_letters := s.omit_letters ++ [c] }
          (pos + 1) false rest) ∧
    (('a' ≤ c ∧ c ≤ 'z') → neg = false →
      solveLine s pos neg (c :: rest) =
        solveLine { s with
            req_letters := s.req_letters ++ [c],
            cand_letters := s.cand_letters ++ [⟨c, pos, false⟩] }
          (pos + 1) false rest) ∧
    (('A' ≤ c ∧ c ≤ 'Z') →
      solveLine s pos neg (c :: rest) =
        solveLine { s with
            req_letters := s.req_letters ++ [toAsciiLowercase c],
            cand_letters := s.cand_letters ++ [⟨toAsciiLowercase c, pos, true⟩] }
          (pos + 1) neg rest) := by
  refine ⟨?_, ?_, ?_, ?_⟩
  · intro h1
    simp only [solveLine]
    rw [if_pos h1]
  · intro h2 hneg
    subst hneg
    simp only [solveLine]
    rw [if_neg (marker_not_lower h2), if_pos h2, if_pos trivial]
  · intro h2 hneg
    subst hneg
    simp only [solveLine]
    rw [if_neg (marker_not_lower h2), if_pos h2, if_neg (by simp)]
  · intro h3
    simp only [solveLine]
    rw [if_neg (marker_not_upper h3), if_neg (upper_not_lower h3), if_pos h3]

/-- Witness for the amended C4: a pending negation consumes a lowercase
letter into `omit_letters`. -/
theorem solveLine_c4_amended_witness :
    solveLine ⟨[], [], []⟩ 0 true ['b'] = solveLine ⟨['b'], [], []⟩ 1 false [] := by
  have h := (solveLine_c4_amended ⟨[], [], []⟩ 0 true [] 'b').2.1 (by decide) rfl
  simpa using h

/-! ### C5: `Word::try_from` -/

theorem strByteLen_ascii : ∀ value : List Char,
    (∀ c ∈ value, c.toNat < 128) → strByteLen value = value.length
  | [], _ => rfl
  | c :: rest, hascii => by
    have hc : charUtf8Len c = 1 := by
      have := hascii c (List.mem_cons_self _ _)
      simp only [charUtf8Len]
      rw [if_pos (by omega)]
    have ih := strByteLen_ascii rest (fun d hd => hascii d (List.mem_cons_of_mem _ hd))
    simp only [strByteLen, List.map_cons, List.sum_cons, List.length_cons] at ih ⊢
    omega

/-- C5 counterexample: the 4-character string `abcé` occupies 5 UTF-8 bytes,
so `Word::try_from` (which tests `value.len() != 5`, a BYTE length) accepts
it even though it does not have exactly 5 characters. -/
theorem word_try_from_c5_counterexample :
    (['a', 'b', 'c', Char.ofNat 0xE9] : List Char).length ≠ 5 ∧
    (word_try_from ['a', 'b', 'c', Char.ofNat 0xE9]).isSome = true := by
  decide

/-- C5 (amended): `Word::try_from` succeeds iff the UTF-8 BYTE length of the
input is exactly 5.  For all-ASCII inputs byte length and character count
coincide, so parsing succeeds iff the input has 5 characters, and then each
character is independently ASCII-lowercased and the parsed word displays as
the lowercased input. -/
theorem word_try_from_c5_amended (value : List Char) :
    ((word_try_from value).isSome = true ↔ strByteLen value = 5) ∧
    ((∀ c ∈ value, c.toNat < 128) →
      (((word_try_from value).isSome = true ↔ value.length = 5) ∧
       ∀ w, word_try_from value = some w →
         w.letters = value.map toAsciiLowercase)) := by
  constructor
  · by_cases hb : strByteLen value = 5 <;> simp [word_try_from, hb]
  · intro hascii
    have hlen : strByteLen value = value.length := strByteLen_ascii value hascii
    constructor
    · by_cases hb : value.length = 5 <;> simp [word_try_from, hlen, hb]
    · intro w hw
      have h5 : value.length = 5 := by
        by_contra hne
        have hnone : word_try_from value = none := by
          simp [word_try_from, hlen, hne]
        rw [hnone] at hw
        cases hw
      rcases value with _ | ⟨a, value⟩
      · simp at h5
      rcases value with _ | ⟨b, value⟩
      · simp at h5
      rcases value with _ | ⟨c, value⟩
      · simp at h5
      rcases value with _ | ⟨d, value⟩
      · simp at h5
      rcases value with _ | ⟨e, value⟩
      · simp at h5
      rcases value with _ | ⟨f, value⟩
      swap
      · simp at h5
      rw [word_try_from, if_pos (hlen.trans h5)] at hw
      obtain rfl := (Option.some.inj hw)
      show writeWord 0 ([a, b, c, d, e].take 5) (List.replicate 5 (Char.ofNat 0)) = _
      simp [writeWord, List.set, List.replicate]

/-- Witness for the amended C5 at a concrete all-ASCII input. -/
theorem word_try_from_c5_witness :
    ((word_try_from ['a', 'b', 'c', 'd', 'e']).isSome = true ↔
      (['a', 'b', 'c', 'd', 'e'] : List Char).length = 5) ∧
    ∀ w, word_try_from ['a', 'b', 'c', 'd', 'e'] = some w →
      w.letters = ['a', 'b', 'c', 'd', 'e'].map toAsciiLowercase :=
  (word_try_from_c5_amended ['a', 'b', 'c', 'd', 'e']).2 (by decide)

/-! ### C7: monotonicity of `is_candidate` under hint accumulation -/

theorem bool_eq_false {b : Bool} (h : ¬ b = true) : b = false := by
  cases b
  · rfl
  · exact absurd rfl h

theorem checkCands_append_false (w : Word) : ∀ l1 l2 : List FoundLetter,
    checkCands w l1 = some false → checkCands w (l1 ++ l2) = some false
  | [], _, h => by simp [checkCands] at h
  | cand :: rest, l2, h => by
    cases hget : w.letters.get? cand.position with
    | none =>
      rw [checkCands, hget] at h
      cases h
    | some ch =>
      rw [checkCands, hget] at h
      rw [show cand :: rest ++ l2 = cand :: (rest ++ l2) from rfl, checkCands, hget]
      rcases hcl : cand.correct_location with _ | _
      · by_cases heq : ch = cand.letter
        · simp [hcl, heq]
        · simp only [hcl] at h ⊢
          simp [heq] at h ⊢
          exact checkCands_append_false w rest l2 h
      · by_cases heq : ch = cand.letter
        · simp only [hcl] at h ⊢
          simp [heq] at h ⊢
          exact checkCands_append_false w rest l2 h
        · simp [hcl, heq]

/-- C7: adding constraints to a hint append-only never turns a rejection
into an acceptance: if `is_candidate` rejected a word it still rejects it
under any extension of the hint. -/
theorem is_candidate_c7 (w : Word) (h h' : Hint) (hext : hintExtends h h')
    (hf : is_candidate w h = some false) : is_candidate w h' = some false := by
  obtain ⟨⟨t1, ht1⟩, ⟨t2, ht2⟩, ⟨t3, ht3⟩⟩ := hext
  unfold is_candidate at hf ⊢
  by_cases hA' : (!h'.omit_letters.isEmpty
      && w.letters.any fun c => h'.omit_letters.contains c) = true
  · rw [if_pos hA']
  · rw [if_neg hA']
    have h1' : ∀ c ∈ w.letters, c ∉ h'.omit_letters :=
      (omitCond_eq_false_iff w h'.omit_letters).mp (bool_eq_false hA')
    have h1 : ∀ c ∈ w.letters, c ∉ h.omit_letters := by
      intro c hc hmem
      exact h1' c hc (by rw [ht1]; exact List.mem_append_left _ hmem)
    rw [(omitCond_eq_false_iff w h.omit_letters).mpr h1] at hf
    simp only [Bool.false_eq_true, if_false] at hf
    by_cases hB' : (!h'.req_letters.isEmpty
        && !(h'.req_letters.all fun c => w.letters.contains c)) = true
    · rw [if_pos hB']
    · rw [if_neg hB']
      have h2' : ∀ c ∈ h'.req_letters, c ∈ w.letters :=
        (reqCond_eq_false_iff w h'.req_letters).mp (bool_eq_false hB')
      have h2 : ∀ c ∈ h.req_letters, c ∈ w.letters := by
        intro c hc
        exact h2' c (by rw [ht2]; exact List.mem_append_left _ hc)
      rw [(reqCond_eq_false_iff w h.req_letters).mpr h2] at hf
      simp only [Bool.false_eq_true, if_false] at hf
      rw [ht3]
      exact checkCands_append_false w h.cand_letters t3 hf

/-- Witness for C7: a word rejected for containing an omitted letter stays
rejected after the hint grows. -/
theorem is_candidate_c7_witness :
    is_candidate wABCDE (⟨['a', 'z'], ['q'], [⟨'x', 0, true⟩]⟩ : Hint) = some false :=
  is_candidate_c7 wABCDE ⟨['a'], [], []⟩ ⟨['a', 'z'], ['q'], [⟨'x', 0, true⟩]⟩
    ⟨⟨['z'], rfl⟩, ⟨['q'], rfl⟩, ⟨[⟨'x', 0, true⟩], rfl⟩⟩ (by decide)

/-! ### C8: idempotence of pool filtering -/

theorem filter_pool_mem_true (hint : Hint) : ∀ p q : List Word,
    filter_pool p hint = some q → ∀ w ∈ q, is_candidate w hint = some true
  | [], q, hp => by
    simp only [filter_pool, Option.some.injEq] at hp
    subst hp
    intro w hw
    exact absurd hw (List.not_mem_nil w)
  | v :: rest, q, hp => by
    rw [filter_pool] at hp
    cases hc : is_candidate v hint with
    | none => rw [hc] at hp; cases hp
    | some b =>
      rw [hc] at hp
      cases b with
      | true =>
        cases hrest : filter_pool rest hint with
        | none => rw [hrest] at hp; cases hp
        | some q' =>
          rw [hrest] at hp
          simp only [Option.map, Option.map.eq_def, Option.some.injEq] at hp
          subst hp
          intro w hw
          rcases List.mem_cons.mp hw with rfl | hw'
          · exact hc
          · exact filter_pool_mem_true hint rest q' hrest w hw'
      | false =>
        exact filter_pool_mem_true hint rest q hp

theorem filter_pool_of_all_true (hint : Hint) : ∀ p : List Word,
    (∀ w ∈ p, is_candidate w hint = some true) → filter_pool p hint = some p
  | [], _ => rfl
  | v :: rest, hall => by
    rw [filter_pool, hall v (List.mem_cons_self _ _),
      filter_pool_of_all_true hint rest (fun w hw => hall w (List.mem_cons_of_mem _ hw))]
    rfl

/-- C8: filtering a pool with a fixed hint is idempotent — re-filtering the
already-filtered pool with the same hint returns it unchanged (with a panic
during the first pass propagating, via `Option.bind`). -/
theorem filter_pool_c8 (p : List Word) (hint : Hint) :
    (filter_pool p hint).bind (fun q => filter_pool q hint) = filter_pool p hint := by
  cases hp : filter_pool p hint with
  | none => rfl
  | some q =>
    show filter_pool q hint = some q
    exact filter_pool_of_all_true hint q (filter_pool_mem_true hint p q hp)

/-! ### C6: `suggest` — filtering plus score grouping -/

theorem is_candidate_isSome (w : Word) (hint : Hint)
    (hpos : ∀ fl ∈ hint.cand_letters, fl.position < 5) :
    (is_candidate w hint).isSome = true := by
  unfold is_candidate
  split
  · rfl
  · split
    · rfl
    · exact checkCands_isSome w _ hpos

theorem filter_pool_eq_filter (hint : Hint)
    (hpos : ∀ fl ∈ hint.cand_letters, fl.position < 5) : ∀ p : List Word,
    filter_pool p hint = some (p.filter (fun w => (is_candidate w hint).getD false))
  | [] => rfl
  | v :: rest => by
    have ih := filter_pool_eq_filter hint hpos rest
    rw [filter_pool]
    cases hc : is_candidate v hint with
    | none =>
      have := is_candidate_isSome v hint hpos
      rw [hc] at this
      cases this
    | some b =>
      cases b with
      | true => rw [ih]; simp [List.filter_cons, hc]
      | false => rw [ih]; simp [List.filter_cons, hc]

theorem insertScore_key_mem (k : Int) (w : Word) : ∀ m : List (Int × List Word),
    ∀ b ∈ insertScore k w m, b.1 = k ∨ ∃ a ∈ m, b.1 = a.1
  | [], b, hb => by
    simp only [insertScore, List.mem_singleton] at hb
    subst hb
    exact Or.inl rfl
  | (k1, ws) :: rest, b, hb => by
    rw [insertScore] at hb
    by_cases h1 : k = k1
    · rw [if_pos h1] at hb
      rcases List.mem_cons.mp hb with rfl | hbr
      · exact Or.inr ⟨(k1, ws), List.mem_cons_self _ _, rfl⟩
      · exact Or.inr ⟨b, List.mem_cons_of_mem _ hbr, rfl⟩
    · rw [if_neg h1] at hb
      by_cases h2 : k < k1
      · rw [if_pos h2] at hb
        rcases List.mem_cons.mp hb with rfl | hbr
        · exact Or.inl rfl
        · exact Or.inr ⟨b, hbr, rfl⟩
      · rw [if_neg h2] at hb
        rcases List.mem_cons.mp hb with rfl | hbr
        · exact Or.inr ⟨(k1, ws), List.mem_cons_self _ _, rfl⟩
        · rcases insertScore_key_mem k w rest b hbr with hk | ⟨a, ha, hba⟩
          · exact Or.inl hk
          · exact Or.inr ⟨a, List.mem_cons_of_mem _ ha, hba⟩

theorem insertScore_sorted (k : Int) (w : Word) : ∀ m : List (Int × List Word),
    ScoresSorted m → ScoresSorted (insertScore k w m)
  | [], _ => by simp [insertScore, ScoresSorted]
  | (k1, ws) :: rest, hs => by
    obtain ⟨hall, hrest⟩ := List.pairwise_cons.mp hs
    rw [insertScore]
    by_cases h1 : k = k1
    · rw [if_pos h1]
      exact List.pairwise_cons.mpr ⟨hall, hrest⟩
    · rw [if_neg h1]
      by_cases h2 : k < k1
      · rw [if_pos h2]
        refine List.pairwise_cons.mpr ⟨?_, hs⟩
        intro b hb
        rcases List.mem_cons.mp hb with rfl | hbr
        · exact h2
        · exact lt_trans h2 (hall b hbr)
      · rw [if_neg h2]
        have hk1k : k1 < k :=
          lt_of_le_of_ne (not_lt.mp h2) (fun hh => h1 hh.symm)
        refine List.pairwise_cons.mpr
          ⟨?_, insertScore_sorted k w rest hrest⟩
        intro b hb
        rcases insertScore_key_mem k w rest b hb with hk | ⟨a, ha, hba⟩
        · rw [hk]; exact hk1k
        · rw [hba]; exact hall a ha

theorem lookupScore_eq_nil_of_lt (s : Int) : ∀ m : List (Int × List Word),
    (∀ e ∈ m, s < e.1) → lookupScore m s = []
  | [], _ => rfl
  | (k1, ws) :: rest, hall => by
    rw [lookupScore]
    rw [if_neg (by
      intro heq
      have := hall (k1, ws) (List.mem_cons_self _ _)
      rw [heq] at this
      exact lt_irrefl s this)]
    exact lookupScore_eq_nil_of_lt s rest (fun e he => hall e (List.mem_cons_of_mem _ he))

theorem lookupScore_insertScore (k s : Int) (w : Word) : ∀ m : List (Int × List Word),
    ScoresSorted m →
    lookupScore (insertScore k w m) s =
      lookupScore m s ++ (if k = s then [w] else [])
  | [], _ => by
    by_cases hks : k = s <;> simp [insertScore, lookupScore, hks]
  | (k1, ws) :: rest, hs => by
    obtain ⟨hall, hrest⟩ := List.pairwise_cons.mp hs
    rw [insertScore]
    by_cases h1 : k = k1
    · rw [if_pos h1]
      subst h1
      by_cases hks : k = s
      · subst hks
        rw [lookupScore, if_pos rfl, lookupScore, if_pos rfl, if_pos rfl]
      · rw [lookupScore, if_neg hks, lookupScore, if_neg hks, if_neg hks,
          List.append_nil]
    · rw [if_neg h1]
      by_cases h2 : k < k1
      · rw [if_pos h2]
        by_cases hks : k = s
        · subst hks
          rw [lookupScore, if_pos rfl, if_pos rfl,
            lookupScore_eq_nil_of_lt k ((k1, ws) :: rest) ?_]
          · rfl
          · intro e he
            rcases List.mem_cons.mp he with rfl | her
            · exact h2
            · exact lt_trans h2 (hall e her)
        · rw [lookupScore, if_neg (fun hh : k = s => hks hh), if_neg hks,
            List.append_nil]
      · rw [if_neg h2]
        by_cases hk1s : k1 = s
        · have hks : ¬(k = s) := fun hh => h1 (hh.trans hk1s.symm)
          rw [lookupScore, if_pos hk1s, lookupScore, if_pos hk1s, if_neg hks,
            List.append_nil]
        · rw [lookupScore, if_neg hk1s, lookupScore, if_neg hk1s,
            lookupScore_insertScore k s w rest hrest]

theorem lookupScore_foldl (f : Word → Int) (s : Int) : ∀ (l : List Word)
    (m : List (Int × List Word)), ScoresSorted m →
    lookupScore (l.foldl (fun acc w => insertScore (f w) w acc) m) s =
      lookupScore m s ++ l.filter (fun w => decide (f w = s))
  | [], m, _ => by simp
  | w :: l, m, hm => by
    simp only [List.foldl_cons, List.filter_cons]
    rw [lookupScore_foldl f s l (insertScore (f w) w m) (insertScore_sorted (f w) w m hm),
      lookupScore_insertScore (f w) s w m hm]
    by_cases hfw : f w = s
    · simp [hfw]
    · simp [hfw]

theorem sum_map_neg (f : Char → Int) : ∀ l : List Char,
    (l.map (fun c => -f c)).sum = -((l.map f).sum)
  | [] => by simp
  | c :: rest => by simp [sum_map_neg f rest, neg_add, add_comm]

/-- C6: for position-bounded hints, `suggest` returns (without panicking)
the subsequence of the pool accepted by `is_candidate` (in pool order),
together with the score grouping: the group stored under map key `s` is
exactly the filtered words (in pool order) whose distinct-letter frequency
sum equals `-s` — the key is the NEGATED sum of the filtered-pool
occurrence counts of the word's distinct letters, duplicates in the
histogram counted and duplicates within a word counted once. -/
theorem suggest_c6 (hint : Hint) (p : List Word)
    (hpos : ∀ fl ∈ hint.cand_letters, fl.position < 5) :
    (suggest hint p).isSome = true ∧
    ∀ flt scores, suggest hint p = some (flt, scores) →
      flt = p.filter (fun w => (is_candidate w hint).getD false) ∧
      ∀ s : Int, lookupScore scores s =
        flt.filter (fun w =>
          decide ((w.letters.dedup.map (fun c => letterFreq flt c)).sum = -s)) := by
  have hfp := filter_pool_eq_filter hint hpos p
  constructor
  · rw [suggest, hfp]
    rfl
  · intro flt scores hsug
    rw [suggest, hfp] at hsug
    simp only [Option.map, Option.map.eq_def, Option.some.injEq, Prod.mk.injEq] at hsug
    obtain ⟨hflt, hscores⟩ := hsug
    subst hflt
    subst hscores
    refine ⟨rfl, ?_⟩
    intro s
    rw [buildScores,
      lookupScore_foldl (wordScore (p.filter fun w => (is_candidate w hint).getD false)) s _ []
        List.Pairwise.nil]
    rw [show lookupScore [] s = [] from rfl, List.nil_append]
    apply List.filter_congr
    intro w _
    have hws : wordScore (p.filter fun w => (is_candidate w hint).getD false) w =
        -((w.letters.dedup.map
            (fun c => letterFreq (p.filter fun w => (is_candidate w hint).getD false) c)).sum) := by
      rw [wordScore, sum_map_neg]
    rw [decide_eq_decide]
    rw [hws]
    exact neg_eq_iff_eq_neg

/-- Witness for C6 at a concrete hint and pool. -/
theorem suggest_c6_witness :
    (suggest hintC6 poolC6).isSome = true ∧
    ∀ flt scores, suggest hintC6 poolC6 = some (flt, scores) →
      flt = poolC6.filter (fun w => (is_candidate w hintC6).getD false) ∧
      ∀ s : Int, lookupScore scores s =
        flt.filter (fun w =>
          decide ((w.letters.dedup.map (fun c => letterFreq flt c)).sum = -s)) :=
  suggest_c6 hintC6 poolC6 (by decide)

/-! ### C9: the play loop -/

theorem playFrom_won (answer : Word) : ∀ (lines : List (List Char)) (n j : Nat),
    n + j ≤ MAX_GUESSES →
    (lines.filterMap word_try_from).get? j = some answer →
    (∀ i, i < j → (lines.filterMap word_try_from).get? i ≠ some answer) →
    playFrom answer n lines = PlayOutcome.Won (n + j)
  | [], _, j, _, hget, _ => by simp at hget
  | line :: rest, n, j, hle, hget, hne => by
    rw [playFrom]
    rw [if_neg (by omega : ¬ MAX_GUESSES < n)]
    cases hw : word_try_from line with
    | none =>
      have hfm : (line :: rest).filterMap word_try_from =
          rest.filterMap word_try_from := by
        simp [List.filterMap_cons, hw]
      rw [hfm] at hget hne
      exact playFrom_won answer rest n j hle hget hne
    | some g =>
      have hfm : (line :: rest).filterMap word_try_from =
          g :: rest.filterMap word_try_from := by
        simp [List.filterMap_cons, hw]
      rw [hfm] at hget hne
      cases j with
      | zero =>
        have hg : g = answer := by simpa using hget
        show (if g = answer then PlayOutcome.Won n else playFrom answer (n + 1) rest) =
          PlayOutcome.Won (n + 0)
        rw [if_pos hg]
        rfl
      | succ j' =>
        have hg : ¬(g = answer) := by
          have := hne 0 (Nat.succ_pos j')
          simpa using this
        have hget' : (rest.filterMap word_try_from).get? j' = some answer := by
          simpa using hget
        have hne' : ∀ i, i < j' → (rest.filterMap word_try_from).get? i ≠ some answer := by
          intro i hi
          have := hne (i + 1) (Nat.succ_lt_succ hi)
          simpa using this
        show (if g = answer then PlayOutcome.Won n else playFrom answer (n + 1) rest) =
          PlayOutcome.Won (n + (j' + 1))
        rw [if_neg hg, playFrom_won answer rest (n + 1) j' (by omega) hget' hne']
        congr 1
        omega

theorem playFrom_lost (answer : Word) : ∀ (lines : List (List Char)) (n : Nat),
    (∀ i, i < MAX_GUESSES + 1 - n → (lines.filterMap word_try_from).get? i ≠ some answer) →
    MAX_GUESSES + 1 - n ≤ (lines.filterMap word_try_from).length →
    playFrom answer n lines = PlayOutcome.Lost
  | [], n, _, hlen => by
    by_cases h7 : MAX_GUESSES < n
    · rw [playFrom, if_pos h7]
    · exfalso
      simp only [List.filterMap_nil, List.length_nil] at hlen
      omega
  | line :: rest, n, hne, hlen => by
    by_cases h7 : MAX_GUESSES < n
    · rw [playFrom, if_pos h7]
    · rw [playFrom, if_neg h7]
      cases hw : word_try_from line with
      | none =>
        have hfm : (line :: rest).filterMap word_try_from =
            rest.filterMap word_try_from := by
          simp [List.filterMap_cons, hw]
        rw [hfm] at hne hlen
        exact playFrom_lost answer rest n hne hlen
      | some g =>
        have hfm : (line :: rest).filterMap word_try_from =
            g :: rest.filterMap word_try_from := by
          simp [List.filterMap_cons, hw]
        rw [hfm] at hne hlen
        have hg : ¬(g = answer) := by
          have := hne 0 (by omega)
          simpa using this
        show (if g = answer then PlayOutcome.Won n else playFrom answer (n + 1) rest) =
          PlayOutcome.Lost
        rw [if_neg hg]
        apply playFrom_lost answer rest (n + 1)
        · intro i hi
          have := hne (i + 1) (by omega)
          simpa using this
        · simp only [List.length_cons] at hlen
          omega

/-- C9: a line that fails `Word` parsing is re-prompted without consuming a
round; if the `k`-th successfully parsed guess (`k ≤ 6`) is the first equal
to the answer, the loop ends `Won` with score `k`; if the first 6 parsed
guesses all differ from the answer, the loop ends `Lost` and the reveal
message printed by `main` contains the answer. -/
theorem play_c9 (answer : Word) (lines : List (List Char)) (k : Nat) :
    (∀ (line : List Char) (rest : List (List Char)) (n : Nat),
        word_try_from line = none →
        playFrom answer n (line :: rest) = playFrom answer n rest) ∧
    (1 ≤ k → k ≤ MAX_GUESSES →
      (lines.filterMap word_try_from).get? (k - 1) = some answer →
      (∀ j, j < k - 1 → (lines.filterMap word_try_from).get? j ≠ some answer) →
      play answer lines = PlayOutcome.Won k) ∧
    ((∀ j, j < MAX_GUESSES → (lines.filterMap word_try_from).get? j ≠ some answer) →
      MAX_GUESSES ≤ (lines.filterMap word_try_from).length →
      play answer lines = PlayOutcome.Lost ∧
      ∃ s t, lostMessage answer = s ++ answer.letters ++ t) := by
  refine ⟨?_, ?_, ?_⟩
  · intro line rest n hw
    by_cases h7 : MAX_GUESSES < n
    · cases rest with
      | nil => rw [playFrom, if_pos h7, playFrom, if_pos h7]
      | cons l r => rw [playFrom, if_pos h7, playFrom, if_pos h7]
    · rw [playFrom, if_neg h7, hw]
  · intro hk1 hk6 hget hne
    rw [play, playFrom_won answer lines 1 (k - 1) (by omega) hget hne]
    congr 1
    omega
  · intro hne hlen
    refine ⟨?_, "Better luck next time.  The answer was \"".toList, "\".".toList, rfl⟩
    rw [play]
    apply playFrom_lost answer lines 1
    · intro i hi
      exact hne i (by omega)
    · omega

/-- Witness for C9: one invalid line, one wrong guess, then the answer —
won in round 2; and six wrong guesses lose. -/
theorem play_c9_witness :
    playFrom wABCDE 1 [['x'], ['a', 'b', 'c', 'd', 'e']] =
      playFrom wABCDE 1 [['a', 'b', 'c', 'd', 'e']] ∧
    play wABCDE [['x'], ['q', 'q', 'q', 'q', 'q'], ['a', 'b', 'c', 'd', 'e']] =
      PlayOutcome.Won 2 ∧
    (play wABCDE (List.replicate 6 ['q', 'q', 'q', 'q', 'q']) = PlayOutcome.Lost ∧
      ∃ s t, lostMessage wABCDE = s ++ wABCDE.letters ++ t) :=
  ⟨(play_c9 wABCDE [] 1).1 ['x'] [['a', 'b', 'c', 'd', 'e']] 1 (by decide),
   (play_c9 wABCDE [['x'], ['q', 'q', 'q', 'q', 'q'], ['a', 'b', 'c', 'd', 'e']] 2).2.1
     (by decide) (by decide) (by decide) (by decide),
   (play_c9 wABCDE (List.replicate 6 ['q', 'q', 'q', 'q', 'q']) 1).2.2
     (by decide) (by decide)⟩

/-! ### C10: positions recorded by the feedback parser can leave bounds -/

/-- C10 (refuting evaluation): the six-letter feedback line `ABCDEa` is
accepted by the solve loop's parser and appends a `FoundLetter` with
position 5; `is_candidate` on the word `abcde` (which survives the omit,
req and first five positional checks) then indexes the 5-character word
array at position 5 — the out-of-range branch IS reachable (a panic,
modelled as `none`). -/
theorem solveLine_c10_code_bug :
    solveLine ⟨[], [], []⟩ 0 false ['A', 'B', 'C', 'D', 'E', 'a'] =
      LineResult.ok ⟨[], ['a', 'b', 'c', 'd', 'e', 'a'],
        [⟨'a', 0, true⟩, ⟨'b', 1, true⟩, ⟨'c', 2, true⟩, ⟨'d', 3, true⟩,
         ⟨'e', 4, true⟩, ⟨'a', 5, false⟩]⟩ ∧
    (⟨'a', 5, false⟩ : FoundLetter) ∈
      (⟨[], ['a', 'b', 'c', 'd', 'e', 'a'],
        [⟨'a', 0, true⟩, ⟨'b', 1, true⟩, ⟨'c', 2, true⟩, ⟨'d', 3, true⟩,
         ⟨'e', 4, true⟩, ⟨'a', 5, false⟩]⟩ : Hint).cand_letters ∧
    is_candidate wABCDE
      ⟨[], ['a', 'b', 'c', 'd', 'e', 'a'],
        [⟨'a', 0, true⟩, ⟨'b', 1, true⟩, ⟨'c', 2, true⟩, ⟨'d', 3, true⟩,
         ⟨'e', 4, true⟩, ⟨'a', 5, false⟩]⟩ = none := by
  decide

end WordleSolve
